import Mathlib

/-!
Amigo Secreto: registry, draw and lookup of `script.js`.

A shallow embedding of the session logic of `script.js`.

* The three globals `participantes`, `asignaciones` and `sorteoRealizado` are the fields of
  `Estado`; every handler is a function from the state before to the state after, paired with
  the notification it raises.
* The values read from the form (`nombreInput.value`, `pinInput.dataset.pinValue || ''`) are
  arguments of the handlers.
* A JavaScript string is a Lean `String`; its `length` and the positions of `substring` count
  UTF-16 code units (`length16`, `prefijo16`). `undefined` is `none` for an array element and
  `Valor.undefined` for a property read.
* `String.prototype.trim` and `String.prototype.toLowerCase` are supplied by a `Host`.
* `Math.floor(Math.random() * (i + 1))` is an index between `0` and `i`; the outcome of the
  random source is the family of these indices.
* Rendering, screen switching and timers are not modelled.
-/

namespace AmigoSecreto

/-! ## Data model -/

/-- The two string primitives of the host used by the handlers, with the two facts about
lower-casing that the registry relies on: the empty string is its own lower-case form and is
the lower-case form of no other string. -/
structure Host where
  /-- `String.prototype.trim`. -/
  trim : String → String
  /-- `String.prototype.toLowerCase`. -/
  toLowerCase : String → String
  toLowerCase_empty : toLowerCase "" = ""
  toLowerCase_nonempty : ∀ s : String, toLowerCase s = "" → s = ""

/-- An element `{ nombre, pin }` of `participantes`. -/
structure Participante where
  nombre : String
  pin : String
deriving DecidableEq, Repr

/-- The globals of the script. `asignaciones` is the object used as a map from giver to
recipient: the list of its own string-keyed properties, at most one entry per key; what it
inherits from `Object.prototype` is accounted for by `setProp` and `getProp`. The position of
an entry in the list carries no meaning. -/
structure Estado where
  participantes : List Participante
  asignaciones : List (String × String)
  sorteoRealizado : Bool
deriving DecidableEq, Repr

/-- The ways a handler stops early. All but the last are a call of `mostrarMensaje` followed by
`return`; `TypeError` is the uncaught exception raised by reading a property of `undefined`. -/
inductive Error where
  /-- "Por favor, ingresa un nombre." -/
  | EmptyName
  /-- "Ese nombre ya fue registrado." -/
  | DuplicateName
  /-- "El PIN debe tener exactamente 4 dígitos." -/
  | InvalidPinLength
  /-- "Debe haber al menos dos participantes para realizar el sorteo." -/
  | InsufficientParticipants
  /-- "No se pudo realizar el sorteo con éxito. Intenta nuevamente." -/
  | DrawFailed
  /-- "El sorteo aún no se ha realizado. ¡Intenta más tarde!" -/
  | DrawNotYetPerformed
  /-- "Por favor, ingresa tu nombre para consultar." -/
  | NameRequired
  /-- "El nombre ingresado no está registrado como participante." -/
  | UnknownParticipant
  /-- "PIN incorrecto para este participante." -/
  | WrongPin
  /-- "Este participante no tiene PIN. No debes ingresar uno." -/
  | UnexpectedPin
  /-- "Solo se permiten dígitos numéricos en el PIN." -/
  | DigitsOnly
  /-- An uncaught `TypeError`: the handler is aborted by an exception, nothing is notified. -/
  | TypeError
deriving DecidableEq, Repr

/-- Whether the stop is a notification the session recovers from, as opposed to an exception. -/
def Error.recoverable : Error → Bool
  | Error.TypeError => false
  | _ => true

/-- What a handler leaves behind: the globals after the call and the early stop, if any. -/
structure Salida where
  estado : Estado
  error : Option Error
deriving DecidableEq, Repr

/-- The globals when the script is loaded. -/
def inicial : Estado := ⟨[], [], false⟩

/-! ## Objects used as maps -/

/-- What a property read `obj[k]` yields on an object that holds strings: a string of its own,
`undefined`, or a value inherited from `Object.prototype` (a function, or for `__proto__` the
prototype object itself). -/
inductive Valor where
  | cadena (s : String)
  | undefined
  | heredado
deriving DecidableEq, Repr

/-- The property names every object literal inherits from `Object.prototype`. -/
def heredadas : List String :=
  ["constructor", "__defineGetter__", "__defineSetter__", "hasOwnProperty",
    "__lookupGetter__", "__lookupSetter__", "isPrototypeOf", "propertyIsEnumerable",
    "toString", "valueOf", "__proto__", "toLocaleString"]

/-- The assignment `obj[k] = v` of a string `v` when `k` is not `__proto__`: overwrite the own
property `k` or add it. -/
def setOwn : List (String × String) → String → String → List (String × String)
  | [], k, v => [(k, v)]
  | (k', v') :: rest, k, v => if k' = k then (k, v) :: rest else (k', v') :: setOwn rest k v

/-- The assignment `obj[k] = v` of a string `v`. For `k = "__proto__"` it runs the inherited
setter, which ignores a value that is neither an object nor `null`: nothing is stored. Any
other key, inherited ones included, becomes an own property. -/
def setProp (obj : List (String × String)) (k v : String) : List (String × String) :=
  if k = "__proto__" then obj else setOwn obj k v

/-- The read `obj[k]`: the own property if there is one, otherwise what `Object.prototype`
provides under that name, otherwise `undefined`. -/
def getProp (obj : List (String × String)) (k : String) : Valor :=
  match obj.find? fun kv => kv.1 = k with
  | some kv => Valor.cadena kv.2
  | none => if k ∈ heredadas then Valor.heredado else Valor.undefined

/-! ## Strings -/

/-- The number of UTF-16 code units of a character: two for a supplementary character. -/
def unidades (c : Char) : Nat := if c.toNat < 65536 then 1 else 2

/-- The property `s.length`: the number of UTF-16 code units of `s`. -/
def length16 (s : String) : Nat := (s.data.map unidades).sum

/-- The characters of `s.substring(0, n)`, whose end is counted in UTF-16 code units. When
position `n` lies between the two code units of a supplementary character the source keeps
its leading surrogate alone, which a `String` does not hold; the list stops before that
character. -/
def prefijo16 : List Char → Nat → List Char
  | [], _ => []
  | c :: cs, n => if unidades c ≤ n then c :: prefijo16 cs (n - unidades c) else []

/-! ## Shuffle -/

/-- One outcome of the random source for one call of `shuffle`: at the iteration with loop
variable `i` the value of `Math.floor(Math.random() * (i + 1))`, an index from `0` to `i`. -/
abbrev Pick := (i : Nat) → Fin (i + 1)

/-- The destructuring swap `[arr[i], arr[j]] = [arr[j], arr[i]]`: both reads come first, then
`arr[i]` and `arr[j]` are written in this order. Both indices are inside the array wherever
`shuffle` swaps; outside, the array is returned as it is. -/
def swapAt {α : Type} (arr : List α) (i j : Nat) : List α :=
  match arr[i]?, arr[j]? with
  | some a, some b => (arr.set i b).set j a
  | _, _ => arr

/-- The loop `for (let i = ...; i > 0; i--)` of `shuffle`, entered with loop variable `i`. -/
def shuffleLoop {α : Type} (pick : Pick) : Nat → List α → List α
  | 0, arr => arr
  | i + 1, arr => shuffleLoop pick i (swapAt arr (i + 1) (pick (i + 1)).val)

/-- Fisher-Yates `shuffle(arr)`, the loop started at `arr.length - 1`. -/
def shuffle {α : Type} (pick : Pick) (arr : List α) : List α :=
  shuffleLoop pick (arr.length - 1) arr

/-! ## Validation -/

/-- `arr.indexOf(x)` on an array of strings: the first position of `x`, or `-1`. -/
def indexOf (arr : List String) (x : Option String) : Int :=
  match x with
  | none => -1
  | some s => if List.indexOf s arr < arr.length then (List.indexOf s arr : Int) else -1

/-- The body of the loop of `asignacionValida` at position `i`: `true` when neither `return
false` is taken. -/
def pasoValido (originales asignados : List String) (i : Nat) : Bool :=
  if originales[i]? = asignados[i]? then false
  else
    let recipIndex := indexOf originales asignados[i]?
    if 0 ≤ recipIndex ∧ asignados[recipIndex.toNat]? = originales[i]? then false
    else true

/-- `asignacionValida(originales, asignados)`: every position from `0` to
`originales.length - 1` passes, the first failing one returning `false`. -/
def asignacionValida (originales asignados : List String) : Bool :=
  (List.range originales.length).all fun i => pasoValido originales asignados i

/-! ## Draw -/

/-- The loop `while (!asignacionValida(nombres, posibles) && intentos < 1000)` of
`realizarSorteo`, entered with the current candidate and counter; it returns both as they are
when the loop is left. `rnd k` is the outcome of the random source for the call of `shuffle`
numbered `k`, the one before the loop being number `0`. -/
def reintentar (rnd : Nat → Pick) (nombres : List String) (posibles : List String)
    (intentos : Nat) : List String × Nat :=
  if !asignacionValida nombres posibles && decide (intentos < 1000) then
    reintentar rnd nombres (shuffle (rnd (intentos + 1)) nombres) (intentos + 1)
  else (posibles, intentos)
termination_by 1000 - intentos
decreasing_by
  simp_wf
  simp only [Bool.and_eq_true, decide_eq_true_eq] at *
  omega

/-- The `forEach` of `realizarSorteo`: `asignaciones[nombre] = posibles[i]` for each name in
turn, starting from the object `obj`. -/
def asignar (obj : List (String × String)) (nombres posibles : List String) :
    List (String × String) :=
  (nombres.zip posibles).foldl (fun o np => setProp o np.1 np.2) obj

/-- `realizarSorteo()`. -/
def realizarSorteo (rnd : Nat → Pick) (s : Estado) : Salida :=
  if s.participantes.length < 2 then ⟨s, some Error.InsufficientParticipants⟩
  else
    let nombres := s.participantes.map Participante.nombre
    let fin := reintentar rnd nombres (shuffle (rnd 0) nombres) 0
    if fin.2 = 1000 then ⟨s, some Error.DrawFailed⟩
    else ⟨{ s with asignaciones := asignar [] nombres fin.1, sorteoRealizado := true }, none⟩

/-! ## Registry -/

/-- `agregarParticipante()`, with `nombreValue` the content of the name field and `pinValue`
the value of `pinInput.dataset.pinValue || ''`. -/
def agregarParticipante (h : Host) (nombreValue pinValue : String) (s : Estado) : Salida :=
  let nombre := h.trim nombreValue
  let pin := pinValue
  if nombre = "" then ⟨s, some Error.EmptyName⟩
  else if s.participantes.any fun p => h.toLowerCase p.nombre = h.toLowerCase nombre then
    ⟨s, some Error.DuplicateName⟩
  else if pin ≠ "" ∧ length16 pin ≠ 4 then ⟨s, some Error.InvalidPinLength⟩
  else ⟨{ s with participantes := s.participantes ++ [⟨nombre, pin⟩] }, none⟩

/-- `participantes[index]` for a number `index`; `none` is `undefined`. -/
def participanteEn (s : Estado) (index : Int) : Option Participante :=
  if 0 ≤ index then s.participantes[index.toNat]? else none

/-- `eliminarParticipante(index)`: reading `.nombre` of `participantes[index]` throws when the
element is `undefined`; otherwise `splice(index, 1)` removes it. -/
def eliminarParticipante (index : Int) (s : Estado) : Salida :=
  match participanteEn s index with
  | none => ⟨s, some Error.TypeError⟩
  | some _ => ⟨{ s with participantes := s.participantes.eraseIdx index.toNat }, none⟩

/-- `reiniciarTodo()`. -/
def reiniciarTodo (_s : Estado) : Salida := ⟨⟨[], [], false⟩, none⟩

/-! ## Lookup -/

/-- `consultarAsignado()`, with `nombreValue` the content of the name field and `pinValue` the
value of `consultaPinInput.dataset.pinValue || ''`. On success the result is
`asignaciones[participante.nombre]`. The globals are not written. -/
def consultarAsignado (h : Host) (nombreValue pinValue : String) (s : Estado) :
    Except Error Valor :=
  let nombre := h.trim nombreValue
  let pin := pinValue
  let participante :=
    s.participantes.find? fun p => h.toLowerCase p.nombre = h.toLowerCase nombre
  if !s.sorteoRealizado then Except.error Error.DrawNotYetPerformed
  else if nombre = "" then Except.error Error.NameRequired
  else
    match participante with
    | none => Except.error Error.UnknownParticipant
    | some p =>
      if p.pin ≠ "" ∧ pin ≠ p.pin then Except.error Error.WrongPin
      else if p.pin = "" ∧ pin ≠ "" then Except.error Error.UnexpectedPin
      else Except.ok (getProp s.asignaciones p.nombre)

/-- The reference of the lookup, following the specification: the conditions are tried in
their order of precedence, and the first one that holds decides the failure. -/
def consultarAsignadoRef (h : Host) (nombreValue pinValue : String) (s : Estado) :
    Except Error Valor :=
  match s.sorteoRealizado, decide (h.trim nombreValue = ""),
    s.participantes.find? (fun p => h.toLowerCase p.nombre = h.toLowerCase (h.trim nombreValue))
  with
  | false, _, _ => Except.error Error.DrawNotYetPerformed
  | true, true, _ => Except.error Error.NameRequired
  | true, false, none => Except.error Error.UnknownParticipant
  | true, false, some participante =>
    if participante.pin ≠ "" ∧ participante.pin ≠ pinValue then Except.error Error.WrongPin
    else if participante.pin = "" ∧ pinValue ≠ "" then Except.error Error.UnexpectedPin
    else Except.ok (getProp s.asignaciones participante.nombre)

/-! ## Sessions -/

/-- The states reachable from the empty session by calls of `agregarParticipante`,
`eliminarParticipante`, `realizarSorteo` and `reiniciarTodo`, with any form contents, any index
and any outcome of the random source. -/
inductive Alcanzable (h : Host) : Estado → Prop where
  | inicial : Alcanzable h inicial
  | agregar (s : Estado) (nombreValue pinValue : String) :
      Alcanzable h s → Alcanzable h (agregarParticipante h nombreValue pinValue s).estado
  | eliminar (s : Estado) (index : Int) :
      Alcanzable h s → Alcanzable h (eliminarParticipante index s).estado
  | sortear (s : Estado) (rnd : Nat → Pick) :
      Alcanzable h s → Alcanzable h (realizarSorteo rnd s).estado
  | reiniciar (s : Estado) :
      Alcanzable h s → Alcanzable h (reiniciarTodo s).estado

/-! ## Masked PIN field -/

/-- The two strings of a PIN field: `value`, what the field shows, and `pinValue`, the real PIN
kept in `dataset.pinValue` (empty when unset). -/
structure PinInput where
  value : String
  pinValue : String
deriving DecidableEq, Repr

/-- `'*'.repeat(n)`. -/
def asteriscos (n : Nat) : String := String.mk (List.replicate n '*')

/-- The test `/^\d$/` on `s`: one character, a decimal digit. -/
def esDigito (s : String) : Bool :=
  match s.data with
  | [c] => c.isDigit
  | _ => false

/-- `s.slice(-1)`: the last character of `s` as a string, empty for the empty string. For a
supplementary character the source yields its trailing surrogate alone; like the character
itself it is no digit, which is all the handler asks of it. -/
def ultimo (s : String) : String :=
  match s.data.getLast? with
  | some c => String.mk [c]
  | none => ""

/-- `handlePinInput(pinInput)`, run after the browser has changed `pinInput.value`: the field
after the call and the notification raised. The timer that masks the last digit is not
modelled. -/
def handlePinInput (pinInput : PinInput) : PinInput × Option Error :=
  let currentDisplayedValue := pinInput.value
  let storedPin := pinInput.pinValue
  if length16 currentDisplayedValue < length16 storedPin then
    let storedPin := String.mk (prefijo16 storedPin.data (length16 currentDisplayedValue))
    (⟨asteriscos (length16 storedPin), storedPin⟩, none)
  else if length16 currentDisplayedValue > length16 storedPin then
    let newChar := ultimo currentDisplayedValue
    if !esDigito newChar then
      (⟨asteriscos (length16 storedPin), storedPin⟩, some Error.DigitsOnly)
    else
      let storedPin := storedPin ++ newChar
      (⟨asteriscos (length16 storedPin - 1) ++ newChar, storedPin⟩, none)
  else (⟨asteriscos (length16 storedPin), storedPin⟩, none)

/-- The value of `pinInput.dataset.pinValue || ''` after a sequence of input events on a
field whose `dataset.pinValue` is unset or empty, as it is when the page is loaded and after
`agregarParticipante` or `reiniciarTodo` has cleared it; `valores` lists what the field shows
when each event fires. No other code writes `dataset.pinValue`, so these are the pins the page
passes to `agregarParticipante`. -/
def pinTecleado (valores : List String) : String :=
  (valores.foldl (fun campo v => (handlePinInput ⟨v, campo.pinValue⟩).1) ⟨"", ""⟩).pinValue

/-- Every character is a decimal digit. -/
def soloDigitos (s : String) : Bool := s.data.all Char.isDigit

/-! ## Fixtures -/

/-- A host for evaluating the handlers on ASCII text: `trim` strips blanks, tabs and line
breaks at both ends, `toLowerCase` maps the letters `A` to `Z`. -/
def hostAscii : Host where
  trim s :=
    String.mk ((s.data.dropWhile Char.isWhitespace).reverse.dropWhile Char.isWhitespace).reverse
  toLowerCase s := String.mk (s.data.map Char.toLower)
  toLowerCase_empty := rfl
  toLowerCase_nonempty := by
    intro s hs
    cases s with
    | mk l =>
      cases l with
      | nil => rfl
      | cons c t => exact absurd (congrArg String.data hs) (by simp)

/-- Three participants without PIN, one of them named `__proto__`, before any draw. -/
def conProto : Estado := ⟨[⟨"__proto__", ""⟩, ⟨"Ana", ""⟩, ⟨"Beto", ""⟩], [], false⟩

/-- Three participants without PIN, before any draw. -/
def tresAmigos : Estado := ⟨[⟨"Ana", ""⟩, ⟨"Beto", ""⟩, ⟨"Caro", ""⟩], [], false⟩

/-- A session after the draw: Ana registered with the PIN `1234`, the others without PIN. -/
def sorteado : Estado :=
  ⟨[⟨"Ana", "1234"⟩, ⟨"Beto", ""⟩, ⟨"Caro", ""⟩],
    [("Ana", "Beto"), ("Beto", "Caro"), ("Caro", "Ana")], true⟩

/-- An outcome of the random source: in the calls of `shuffle` numbered `0` to `999` every
step picks `j = i`, which leaves the array as it is; from the call numbered `1000` on every
step picks `j = 0`. -/
def rndUltimo (k : Nat) : Pick := if k < 1000 then fun i => Fin.last i else fun _ => 0

/-! ## Auxiliary lemmas -/

theorem swapAt_length {α : Type} (arr : List α) (i j : Nat) :
    (swapAt arr i j).length = arr.length := by
  unfold swapAt
  split <;> simp

theorem swapAt_getElem? {α : Type} (arr : List α) {i j : Nat} (hi : i < arr.length)
    (hj : j < arr.length) (k : Nat) :
    (swapAt arr i j)[k]? = if k = j then arr[i]? else if k = i then arr[j]? else arr[k]? := by
  unfold swapAt
  rw [List.getElem?_eq_getElem hi, List.getElem?_eq_getElem hj]
  simp only [List.getElem?_set, List.length_set]
  by_cases h1 : j = k
  · subst h1; simp [hj]
  · by_cases h2 : i = k
    · subst h2; simp [h1, hi, Ne.symm h1]
    · simp [h1, h2, Ne.symm h1, Ne.symm h2]

theorem swapAt_perm {α : Type} (arr : List α) (i j : Nat) : (swapAt arr i j).Perm arr := by
  by_cases hi : i < arr.length
  · by_cases hj : j < arr.length
    · have e1 : swapAt arr i j
          = List.ofFn (fun k : Fin arr.length => arr[(Equiv.swap (⟨i, hi⟩ : Fin arr.length) ⟨j, hj⟩ k).val]) := by
        apply List.ext_getElem
        · simp [swapAt_length]
        · intro k hk1 hk2
          have hk : k < arr.length := by simpa [swapAt_length] using hk1
          apply Option.some_injective
          rw [← List.getElem?_eq_getElem hk1, swapAt_getElem? arr hi hj]
          simp only [List.getElem_ofFn]
          by_cases h1 : k = j
          · subst h1
            simp [Equiv.swap_apply_right, List.getElem?_eq_getElem hi]
          · by_cases h2 : k = i
            · subst h2
              simp [Equiv.swap_apply_left, List.getElem?_eq_getElem hj, h1]
            · rw [Equiv.swap_apply_of_ne_of_ne]
              · simp [h1, h2, List.getElem?_eq_getElem hk]
              · intro h; apply h2; exact congrArg Fin.val h
              · intro h; apply h1; exact congrArg Fin.val h
      have e2 : arr = List.ofFn (fun k : Fin arr.length => arr[k.val]) := by
        simp
      rw [e1]
      conv_rhs => rw [e2]
      exact Equiv.Perm.ofFn_comp_perm (Equiv.swap (⟨i, hi⟩ : Fin arr.length) ⟨j, hj⟩)
        (fun k : Fin arr.length => arr[k.val])
    · unfold swapAt
      rw [List.getElem?_eq_none (Nat.le_of_not_lt hj)]
      split <;> simp_all
  · unfold swapAt
    rw [List.getElem?_eq_none (Nat.le_of_not_lt hi)]


theorem swapAt_getElem?_of_ne {α : Type} (arr : List α) {i j k : Nat} (h1 : k ≠ i)
    (h2 : k ≠ j) : (swapAt arr i j)[k]? = arr[k]? := by
  unfold swapAt
  split
  · simp [List.getElem?_set, Ne.symm h1, Ne.symm h2]
  · rfl

theorem shuffleLoop_length {α : Type} (pick : Pick) (i : Nat) (arr : List α) :
    (shuffleLoop pick i arr).length = arr.length := by
  induction i generalizing arr with
  | zero => rfl
  | succ i ih => rw [shuffleLoop, ih, swapAt_length]

theorem shuffleLoop_perm {α : Type} (pick : Pick) (i : Nat) (arr : List α) :
    (shuffleLoop pick i arr).Perm arr := by
  induction i generalizing arr with
  | zero => exact List.Perm.refl _
  | succ i ih =>
    rw [shuffleLoop]
    exact (ih _).trans (swapAt_perm arr _ _)

/-- Positions above the loop variable are not written any more. -/
theorem shuffleLoop_getElem?_above {α : Type} (pick : Pick) (i : Nat) (arr : List α)
    {k : Nat} (hk : i < k) : (shuffleLoop pick i arr)[k]? = arr[k]? := by
  induction i generalizing arr with
  | zero => rfl
  | succ i ih =>
    rw [shuffleLoop, ih _ (by omega)]
    have hj := (pick (i + 1)).isLt
    exact swapAt_getElem?_of_ne arr (by omega) (by omega)

/-- The first iteration decides the element at the loop variable. -/
theorem shuffleLoop_getElem?_top {α : Type} (pick : Pick) (i : Nat) (arr : List α)
    (hi : i + 1 < arr.length) :
    (shuffleLoop pick (i + 1) arr)[i + 1]? = arr[(pick (i + 1)).val]? := by
  rw [shuffleLoop, shuffleLoop_getElem?_above _ _ _ (Nat.lt_succ_self i)]
  have hj := (pick (i + 1)).isLt
  rw [swapAt_getElem? arr hi (by omega)]
  by_cases h : i + 1 = (pick (i + 1)).val
  · rw [if_pos h, ← h]
  · rw [if_neg h, if_pos rfl]

theorem shuffleLoop_congr {α : Type} (p q : Pick) (i : Nat) (arr : List α)
    (h : ∀ k, 1 ≤ k → k ≤ i → p k = q k) : shuffleLoop p i arr = shuffleLoop q i arr := by
  induction i generalizing arr with
  | zero => rfl
  | succ i ih =>
    rw [shuffleLoop, shuffleLoop, h (i + 1) (by omega) (Nat.le_refl _)]
    exact ih _ (fun k h1 h2 => h k h1 (by omega))

theorem shuffleLoop_injective {α : Type} (p q : Pick) (i : Nat) (arr : List α)
    (hnd : arr.Nodup) (hi : i < arr.length)
    (h : shuffleLoop p i arr = shuffleLoop q i arr) :
    ∀ k, 1 ≤ k → k ≤ i → p k = q k := by
  induction i generalizing arr with
  | zero => intro k h1 h2; omega
  | succ i ih =>
    have htop : arr[(p (i + 1)).val]? = arr[(q (i + 1)).val]? := by
      rw [← shuffleLoop_getElem?_top p i arr hi, ← shuffleLoop_getElem?_top q i arr hi, h]
    have hp := (p (i + 1)).isLt
    have hq := (q (i + 1)).isLt
    have hp' : (p (i + 1)).val < arr.length := by omega
    have hq' : (q (i + 1)).val < arr.length := by omega
    rw [List.getElem?_eq_getElem hp', List.getElem?_eq_getElem hq'] at htop
    have hval : (p (i + 1)).val = (q (i + 1)).val :=
      (hnd.getElem_inj_iff).1 (Option.some_injective _ htop)
    have heq : p (i + 1) = q (i + 1) := Fin.ext hval
    rw [shuffleLoop, shuffleLoop, heq] at h
    have hnd' : (swapAt arr (i + 1) (q (i + 1)).val).Nodup :=
      (swapAt_perm arr _ _).nodup_iff.2 hnd
    have hrec := ih _ hnd' (by rw [swapAt_length]; omega) h
    intro k h1 h2
    by_cases hk : k = i + 1
    · subst hk; exact heq
    · exact hrec k h1 (by omega)

theorem perm_take_of_drop_eq {α : Type} {l arr : List α} (m : Nat) (hp : l.Perm arr)
    (hd : l.drop m = arr.drop m) : (l.take m).Perm (arr.take m) := by
  have h1 : (l.take m ++ arr.drop m).Perm (arr.take m ++ arr.drop m) := by
    have e : l.take m ++ arr.drop m = l := by rw [← hd, List.take_append_drop]
    rw [e, List.take_append_drop]
    exact hp
  exact (List.perm_append_right_iff _).1 h1

theorem drop_eq_of_getElem?_above {α : Type} {l arr : List α} (m : Nat)
    (h : ∀ k, m ≤ k → l[k]? = arr[k]?) : l.drop m = arr.drop m := by
  apply List.ext_getElem?
  intro k
  rw [List.getElem?_drop, List.getElem?_drop]
  exact h _ (by omega)

theorem shuffleLoop_surjective {α : Type} (i : Nat) (arr l : List α)
    (hi : i < arr.length) (hp : l.Perm arr) (habove : ∀ k, i < k → l[k]? = arr[k]?) :
    ∃ pick : Pick, shuffleLoop pick i arr = l := by
  induction i generalizing arr with
  | zero =>
    refine ⟨fun k => ⟨0, Nat.succ_pos k⟩, ?_⟩
    rw [shuffleLoop]
    have hd := drop_eq_of_getElem?_above 1 (fun k hk => habove k (by omega))
    have ht := perm_take_of_drop_eq 1 hp hd
    have hl : l.length = arr.length := hp.length_eq
    rw [← List.take_append_drop 1 l, ← List.take_append_drop 1 arr, hd]
    congr 1
    cases l with
    | nil => simp at hl; omega
    | cons a t =>
      cases arr with
      | nil => simp at hi
      | cons b t' =>
        simp only [List.take_succ_cons, List.take_zero] at ht ⊢
        rw [List.perm_singleton.1 ht]
  | succ i ih =>
    have hl : l.length = arr.length := hp.length_eq
    have hd := drop_eq_of_getElem?_above (i + 2) (fun k hk => habove k (by omega))
    have ht := perm_take_of_drop_eq (i + 2) hp hd
    have hmem : l[i + 1] ∈ arr.take (i + 2) := by
      apply ht.subset
      rw [List.mem_take_iff_getElem]
      exact ⟨i + 1, by omega, rfl⟩
    rw [List.mem_take_iff_getElem] at hmem
    obtain ⟨j, hj, hje⟩ := hmem
    have hj1 : j < i + 2 := by omega
    have hj2 : j < arr.length := by omega
    have hnext : ∀ k, i < k → l[k]? = (swapAt arr (i + 1) j)[k]? := by
      intro k hk
      by_cases hk1 : k = i + 1
      · subst hk1
        rw [swapAt_getElem? arr hi hj2, List.getElem?_eq_getElem (by omega : i + 1 < l.length),
          ← hje]
        by_cases hij : i + 1 = j
        · rw [if_pos hij]; simp [← hij]
        · rw [if_neg hij, if_pos rfl]; simp
      · rw [swapAt_getElem?_of_ne arr hk1 (by omega)]
        exact habove k (by omega)
    obtain ⟨pick', hpick'⟩ := ih (swapAt arr (i + 1) j) (by rw [swapAt_length]; omega)
      (hp.trans (swapAt_perm arr _ _).symm) hnext
    refine ⟨fun k => if h : k = i + 1 then ⟨j, by omega⟩ else pick' k, ?_⟩
    rw [shuffleLoop]
    simp only [dite_true]
    rw [← hpick']
    apply shuffleLoop_congr
    intro k h1 h2
    have : k ≠ i + 1 := by omega
    simp [this]


theorem asignacionValida_iff_pasos (originales asignados : List String) :
    asignacionValida originales asignados = true
      ↔ ∀ i, i < originales.length → pasoValido originales asignados i = true := by
  simp [asignacionValida, List.all_eq_true]

theorem indexOf_getElem_nodup {arr : List String} (hnd : arr.Nodup) {k : Nat}
    (hk : k < arr.length) : indexOf arr arr[k]? = (k : Int) := by
  rw [List.getElem?_eq_getElem hk]
  simp only [indexOf]
  rw [List.indexOf_getElem hnd k hk, if_pos hk]

theorem indexOf_nonneg {arr : List String} {x : Option String} (h : 0 ≤ indexOf arr x) :
    (indexOf arr x).toNat < arr.length ∧ arr[(indexOf arr x).toNat]? = x := by
  cases x with
  | none => simp [indexOf] at h
  | some s =>
    simp only [indexOf] at h ⊢
    by_cases hlt : List.indexOf s arr < arr.length
    · rw [if_pos hlt]
      simp only [Int.toNat_ofNat]
      refine ⟨hlt, ?_⟩
      rw [List.getElem?_eq_getElem hlt, List.getElem_indexOf hlt]
    · rw [if_neg hlt] at h
      omega

/-- A position passes the loop body when it is no fixed point and closes no reciprocal pair. -/
theorem pasoValido_of_no_pair (originales asignados : List String) (i : Nat)
    (hfix : asignados[i]? ≠ originales[i]?)
    (hpair : ∀ k, k < originales.length → asignados[i]? = originales[k]? →
      asignados[k]? ≠ originales[i]?) :
    pasoValido originales asignados i = true := by
  unfold pasoValido
  rw [if_neg (fun h => hfix h.symm)]
  simp only
  split
  · rename_i h
    obtain ⟨hlt, hget⟩ := indexOf_nonneg h.1
    exact absurd h.2 (hpair _ hlt hget.symm)
  · rfl

/-- With pairwise distinct `originales`, a position that passes the loop body is no fixed point
and closes no reciprocal pair. -/
theorem no_pair_of_pasoValido {originales asignados : List String} (hnd : originales.Nodup)
    {i : Nat} (h : pasoValido originales asignados i = true) :
    asignados[i]? ≠ originales[i]? ∧
      ∀ k, k < originales.length → asignados[i]? = originales[k]? →
        asignados[k]? ≠ originales[i]? := by
  unfold pasoValido at h
  by_cases h1 : originales[i]? = asignados[i]?
  · rw [if_pos h1] at h; exact absurd h (by simp)
  · rw [if_neg h1] at h
    simp only at h
    refine ⟨fun e => h1 e.symm, ?_⟩
    intro k hk hik hki
    rw [hik, indexOf_getElem_nodup hnd hk] at h
    simp [hki] at h


theorem reintentar_done (rnd : Nat → Pick) (nombres posibles : List String) (intentos : Nat)
    (h : asignacionValida nombres posibles = true ∨ 1000 ≤ intentos) :
    reintentar rnd nombres posibles intentos = (posibles, intentos) := by
  rw [reintentar]
  rw [if_neg]
  rcases h with h | h
  · simp [h]
  · simp; intro _; omega

theorem reintentar_retry (rnd : Nat → Pick) (nombres posibles : List String) (intentos : Nat)
    (h1 : asignacionValida nombres posibles = false) (h2 : intentos < 1000) :
    reintentar rnd nombres posibles intentos
      = reintentar rnd nombres (shuffle (rnd (intentos + 1)) nombres) (intentos + 1) := by
  rw [reintentar]
  rw [if_pos]
  simp [h1, h2]

/-- When the loop is left below the ceiling, the candidate it holds has passed validation. -/
theorem reintentar_valid (rnd : Nat → Pick) (nombres : List String) (d : Nat) :
    ∀ (posibles : List String) (intentos : Nat), intentos + d = 1000 →
      (reintentar rnd nombres posibles intentos).2 ≠ 1000 →
      asignacionValida nombres (reintentar rnd nombres posibles intentos).1 = true := by
  induction d with
  | zero =>
    intro posibles intentos hd h
    rw [reintentar_done rnd nombres posibles intentos (Or.inr (by omega))] at h
    exact absurd (by simpa using hd) h
  | succ d ih =>
    intro posibles intentos hd h
    by_cases hv : asignacionValida nombres posibles = true
    · rw [reintentar_done rnd nombres posibles intentos (Or.inl hv)]
      exact hv
    · have hv' : asignacionValida nombres posibles = false := by simpa using hv
      rw [reintentar_retry rnd nombres posibles intentos hv' (by omega)] at h ⊢
      exact ih _ _ (by omega) h

/-- The candidate held when the loop is left is the one it was entered with or the result of
the call of `shuffle` numbered by the final counter. -/
theorem reintentar_candidate (rnd : Nat → Pick) (nombres : List String) (d : Nat) :
    ∀ (posibles : List String) (intentos : Nat), intentos + d = 1000 →
      reintentar rnd nombres posibles intentos = (posibles, intentos) ∨
      (intentos < (reintentar rnd nombres posibles intentos).2 ∧
        (reintentar rnd nombres posibles intentos).2 ≤ 1000 ∧
        (reintentar rnd nombres posibles intentos).1
          = shuffle (rnd (reintentar rnd nombres posibles intentos).2) nombres) := by
  induction d with
  | zero =>
    intro posibles intentos hd
    exact Or.inl (reintentar_done rnd nombres posibles intentos (Or.inr (by omega)))
  | succ d ih =>
    intro posibles intentos hd
    by_cases hv : asignacionValida nombres posibles = true
    · exact Or.inl (reintentar_done rnd nombres posibles intentos (Or.inl hv))
    · have hv' : asignacionValida nombres posibles = false := by simpa using hv
      right
      rw [reintentar_retry rnd nombres posibles intentos hv' (by omega)]
      rcases ih (shuffle (rnd (intentos + 1)) nombres) (intentos + 1) (by omega) with h | h
      · rw [h]; exact ⟨by simp, by simp; omega, rfl⟩
      · exact ⟨by omega, h.2.1, h.2.2⟩

/-- When the candidate on entry and every later candidate below the ceiling fail validation,
the loop runs up to the ceiling. -/
theorem reintentar_exhaust (rnd : Nat → Pick) (nombres : List String) (d : Nat) :
    ∀ (posibles : List String) (intentos : Nat), intentos + d = 1000 →
      asignacionValida nombres posibles = false →
      (∀ k, intentos < k → k < 1000 → asignacionValida nombres (shuffle (rnd k) nombres) = false) →
      (reintentar rnd nombres posibles intentos).2 = 1000 := by
  induction d with
  | zero =>
    intro posibles intentos hd _ _
    rw [reintentar_done rnd nombres posibles intentos (Or.inr (by omega))]
    simpa using hd
  | succ d ih =>
    intro posibles intentos hd hv hall
    rw [reintentar_retry rnd nombres posibles intentos hv (by omega)]
    by_cases hlast : intentos + 1 = 1000
    · rw [reintentar_done rnd nombres _ _ (Or.inr (by omega))]
      exact hlast
    · exact ih _ _ (by omega) (hall _ (by omega) (by omega))
        (fun k h1 h2 => hall k (by omega) h2)

theorem setOwn_of_not_mem (obj : List (String × String)) (k v : String)
    (h : k ∉ obj.map Prod.fst) : setOwn obj k v = obj ++ [(k, v)] := by
  induction obj with
  | nil => rfl
  | cons kv rest ih =>
    obtain ⟨k', v'⟩ := kv
    simp only [List.map_cons, List.mem_cons, not_or] at h
    rw [setOwn, if_neg (fun e => h.1 e.symm), ih h.2]
    rfl

theorem setProp_of_not_mem (obj : List (String × String)) (k v : String)
    (hk : k ≠ "__proto__") (h : k ∉ obj.map Prod.fst) :
    setProp obj k v = obj ++ [(k, v)] := by
  rw [setProp, if_neg hk, setOwn_of_not_mem obj k v h]

/-- With pairwise distinct names, none of them `__proto__` and none yet present as a key, the
`forEach` appends one property per name, in order. -/
theorem asignar_eq_append_zip (nombres : List String) :
    ∀ (obj : List (String × String)) (posibles : List String), nombres.Nodup →
      "__proto__" ∉ nombres →
      (∀ n, n ∈ nombres → n ∉ obj.map Prod.fst) →
      asignar obj nombres posibles = obj ++ nombres.zip posibles := by
  induction nombres with
  | nil => intro obj posibles _ _ _; simp [asignar]
  | cons n ns ih =>
    intro obj posibles hnd hproto hdis
    cases posibles with
    | nil => simp [asignar]
    | cons p ps =>
      have hnd' := List.nodup_cons.1 hnd
      have hproto' : "__proto__" ≠ n ∧ "__proto__" ∉ ns := by
        simpa [List.mem_cons, not_or] using hproto
      have hstep : asignar obj (n :: ns) (p :: ps) = asignar (setProp obj n p) ns ps := rfl
      rw [hstep, setProp_of_not_mem obj n p (fun e => hproto'.1 e.symm)
        (hdis n (List.mem_cons_self _ _)), ih _ ps hnd'.2 hproto'.2]
      · simp
      · intro m hm
        simp only [List.map_append, List.map_cons, List.map_nil, List.mem_append,
          List.mem_singleton, not_or]
        refine ⟨hdis m (List.mem_cons_of_mem _ hm), ?_⟩
        rintro rfl
        exact hnd'.1 hm

theorem getProp_nil_ne_cadena (n m : String) : getProp [] n ≠ Valor.cadena m := by
  unfold getProp
  simp only [List.find?_nil]
  split <;> simp

theorem getProp_cons (a b : String) (rest : List (String × String)) (n : String) :
    getProp ((a, b) :: rest) n = if a = n then Valor.cadena b else getProp rest n := by
  by_cases han : a = n
  · simp [getProp, List.find?_cons, han]
  · simp [getProp, List.find?_cons, han]

theorem getProp_zip_iff (nombres : List String) :
    ∀ (posibles : List String) (n m : String), nombres.Nodup →
      (getProp (nombres.zip posibles) n = Valor.cadena m
        ↔ ∃ i : Nat, nombres[i]? = some n ∧ posibles[i]? = some m) := by
  induction nombres with
  | nil =>
    intro posibles n m _
    rw [List.zip_nil_left]
    constructor
    · intro h; exact absurd h (getProp_nil_ne_cadena n m)
    · rintro ⟨i, h1, _⟩; simp at h1
  | cons a ns ih =>
    intro posibles n m hnd
    have hnd' := List.nodup_cons.1 hnd
    cases posibles with
    | nil =>
      rw [List.zip_nil_right]
      constructor
      · intro h; exact absurd h (getProp_nil_ne_cadena n m)
      · rintro ⟨i, _, h2⟩; simp at h2
    | cons b ps =>
      rw [List.zip_cons_cons, getProp_cons]
      by_cases han : a = n
      · subst han
        rw [if_pos rfl]
        constructor
        · intro h
          exact ⟨0, by simp, by simpa using h⟩
        · rintro ⟨i, h1, h2⟩
          cases i with
          | zero => simpa using h2
          | succ i =>
            simp only [List.getElem?_cons_succ] at h1
            exact absurd (List.getElem?_mem h1) hnd'.1
      · rw [if_neg han, ih ps n m hnd'.2]
        constructor
        · rintro ⟨i, h1, h2⟩
          exact ⟨i + 1, by simpa using h1, by simpa using h2⟩
        · rintro ⟨i, h1, h2⟩
          cases i with
          | zero => simp at h1; exact absurd h1 han
          | succ i => exact ⟨i, by simpa using h1, by simpa using h2⟩

/-- The validator against pairwise distinct `originales`, position by position. -/
theorem asignacionValida_iff_posiciones (originales asignados : List String)
    (hnd : originales.Nodup) :
    asignacionValida originales asignados = true ↔
      (∀ i : Nat, i < originales.length → asignados[i]? ≠ originales[i]?) ∧
      ¬ ∃ i k : Nat, i < originales.length ∧ k < originales.length ∧
          asignados[i]? = originales[k]? ∧ asignados[k]? = originales[i]? := by
  rw [asignacionValida_iff_pasos]
  constructor
  · intro h
    refine ⟨fun i hi => (no_pair_of_pasoValido hnd (h i hi)).1, ?_⟩
    rintro ⟨i, k, hi, hk, h1, h2⟩
    exact (no_pair_of_pasoValido hnd (h i hi)).2 k hk h1 h2
  · rintro ⟨hfix, hpair⟩ i hi
    exact pasoValido_of_no_pair originales asignados i (hfix i hi)
      (fun k hk h1 h2 => hpair ⟨i, k, hi, hk, h1, h2⟩)


theorem shuffle_nil {α : Type} (pick : Pick) : shuffle pick ([] : List α) = [] := rfl

/-- What `realizarSorteo` leaves behind when it raises no notification: a validated candidate,
which is a permutation of the names, zipped into `asignaciones`. -/
theorem realizarSorteo_ok (rnd : Nat → Pick) (s : Estado)
    (hok : (realizarSorteo rnd s).error = none) :
    2 ≤ s.participantes.length ∧
    ∃ posibles : List String,
      posibles.Perm (s.participantes.map Participante.nombre) ∧
      asignacionValida (s.participantes.map Participante.nombre) posibles = true ∧
      (realizarSorteo rnd s).estado =
        { s with
          asignaciones := asignar [] (s.participantes.map Participante.nombre) posibles,
          sorteoRealizado := true } := by
  unfold realizarSorteo at hok ⊢
  by_cases hlen : s.participantes.length < 2
  · rw [if_pos hlen] at hok; exact absurd hok (by simp)
  · rw [if_neg hlen] at hok ⊢
    simp only at hok ⊢
    by_cases hfin : (reintentar rnd (s.participantes.map Participante.nombre)
        (shuffle (rnd 0) (s.participantes.map Participante.nombre)) 0).2 = 1000
    · rw [if_pos hfin] at hok; exact absurd hok (by simp)
    · rw [if_neg hfin]
      refine ⟨by omega, _, ?_, reintentar_valid rnd _ 1000 _ 0 (by omega) hfin, rfl⟩
      rcases reintentar_candidate rnd (s.participantes.map Participante.nombre) 1000
        (shuffle (rnd 0) (s.participantes.map Participante.nombre)) 0 (by omega) with h | h
      · rw [h]; exact shuffleLoop_perm _ _ _
      · rw [h.2.2]; exact shuffleLoop_perm _ _ _

/-- A notification of `realizarSorteo` leaves the globals as they were. -/
theorem realizarSorteo_error (rnd : Nat → Pick) (s : Estado)
    (herr : (realizarSorteo rnd s).error ≠ none) : (realizarSorteo rnd s).estado = s := by
  unfold realizarSorteo at herr ⊢
  by_cases hlen : s.participantes.length < 2
  · rw [if_pos hlen]
  · rw [if_neg hlen] at herr ⊢
    simp only at herr ⊢
    by_cases hfin : (reintentar rnd (s.participantes.map Participante.nombre)
        (shuffle (rnd 0) (s.participantes.map Participante.nombre)) 0).2 = 1000
    · rw [if_pos hfin]
    · rw [if_neg hfin] at herr; exact absurd rfl herr

/-- The properties of the object built from pairwise distinct names, none of them
`__proto__`, and a validated permutation of them. -/
theorem asignar_valid (nombres posibles : List String) (hnd : nombres.Nodup)
    (hproto : "__proto__" ∉ nombres)
    (hperm : posibles.Perm nombres) (hval : asignacionValida nombres posibles = true) :
    (asignar [] nombres posibles).map Prod.fst = nombres ∧
    (asignar [] nombres posibles).map Prod.snd = posibles ∧
    (∀ n, n ∈ nombres → ∃ m, m ∈ nombres ∧ getProp (asignar [] nombres posibles) n = Valor.cadena m) ∧
    (∀ m, m ∈ nombres → ∃ n, n ∈ nombres ∧ getProp (asignar [] nombres posibles) n = Valor.cadena m) ∧
    (∀ n n' m, getProp (asignar [] nombres posibles) n = Valor.cadena m →
      getProp (asignar [] nombres posibles) n' = Valor.cadena m → n = n') ∧
    (∀ n, getProp (asignar [] nombres posibles) n ≠ Valor.cadena n) ∧
    (∀ n m, getProp (asignar [] nombres posibles) n = Valor.cadena m →
      getProp (asignar [] nombres posibles) m ≠ Valor.cadena n) := by
  have hlen : posibles.length = nombres.length := hperm.length_eq
  have hasg : asignar [] nombres posibles = nombres.zip posibles := by
    rw [asignar_eq_append_zip nombres [] posibles hnd hproto (by simp)]; rfl
  have hndp : posibles.Nodup := hperm.nodup_iff.2 hnd
  have hiff := (asignacionValida_iff_posiciones nombres posibles hnd).1 hval
  rw [hasg]
  refine ⟨?_, ?_, ?_, ?_, ?_, ?_, ?_⟩
  · exact List.map_fst_zip _ _ (by omega)
  · exact List.map_snd_zip _ _ (by omega)
  · intro n hn
    obtain ⟨i, hi⟩ := List.getElem?_of_mem hn
    have hil : i < nombres.length := by
      by_contra hc
      rw [List.getElem?_eq_none (by omega)] at hi
      exact absurd hi (by simp)
    have hp : posibles[i]? = some posibles[i] := List.getElem?_eq_getElem (by omega)
    exact ⟨posibles[i], hperm.subset (List.getElem_mem _), (getProp_zip_iff nombres posibles n _ hnd).2 ⟨i, hi, hp⟩⟩
  · intro m hm
    obtain ⟨i, hi⟩ := List.getElem?_of_mem (hperm.symm.subset hm)
    have hil : i < posibles.length := by
      by_contra hc
      rw [List.getElem?_eq_none (by omega)] at hi
      exact absurd hi (by simp)
    have hn : nombres[i]? = some nombres[i] := List.getElem?_eq_getElem (by omega)
    exact ⟨nombres[i], List.getElem_mem _, (getProp_zip_iff nombres posibles _ m hnd).2 ⟨i, hn, hi⟩⟩
  · intro n n' m h1 h2
    obtain ⟨i, hi1, hi2⟩ := (getProp_zip_iff nombres posibles n m hnd).1 h1
    obtain ⟨k, hk1, hk2⟩ := (getProp_zip_iff nombres posibles n' m hnd).1 h2
    have hik : i = k := by
      have hil : i < posibles.length := by
        by_contra hc
        rw [List.getElem?_eq_none (by omega)] at hi2
        exact absurd hi2 (by simp)
      have hkl : k < posibles.length := by
        by_contra hc
        rw [List.getElem?_eq_none (by omega)] at hk2
        exact absurd hk2 (by simp)
      rw [List.getElem?_eq_getElem hil] at hi2
      rw [List.getElem?_eq_getElem hkl] at hk2
      exact (hndp.getElem_inj_iff).1 ((Option.some_injective _ hi2).trans (Option.some_injective _ hk2).symm)
    subst hik
    exact Option.some_injective _ (hi1.symm.trans hk1)
  · intro n h
    obtain ⟨i, hi1, hi2⟩ := (getProp_zip_iff nombres posibles n n hnd).1 h
    have hil : i < nombres.length := by
      by_contra hc
      rw [List.getElem?_eq_none (by omega)] at hi1
      exact absurd hi1 (by simp)
    exact hiff.1 i hil (hi2.trans hi1.symm)
  · intro n m h1 h2
    obtain ⟨i, hi1, hi2⟩ := (getProp_zip_iff nombres posibles n m hnd).1 h1
    obtain ⟨k, hk1, hk2⟩ := (getProp_zip_iff nombres posibles m n hnd).1 h2
    have hil : i < nombres.length := by
      by_contra hc
      rw [List.getElem?_eq_none (by omega)] at hi1
      exact absurd hi1 (by simp)
    have hkl : k < nombres.length := by
      by_contra hc
      rw [List.getElem?_eq_none (by omega)] at hk1
      exact absurd hk1 (by simp)
    exact hiff.2 ⟨i, k, hil, hkl, hi2.trans hk1.symm, hk2.trans hi1.symm⟩

theorem shuffle_perm {α : Type} (pick : Pick) (arr : List α) : (shuffle pick arr).Perm arr :=
  shuffleLoop_perm pick _ arr

/-- Every permutation of an array is the output of `shuffle` for some choices. -/
theorem shuffle_surjective {α : Type} (arr l : List α) (hl : l.Perm arr) :
    ∃ pick : Pick, shuffle pick arr = l := by
  cases arr with
  | nil =>
    refine ⟨fun i => Fin.last i, ?_⟩
    rw [shuffle_nil, List.perm_nil.1 hl]
  | cons a t =>
    apply shuffleLoop_surjective _ _ _ (by simp) hl
    intro k hk
    have h1 : (a :: t).length ≤ k := by simp at hk ⊢; omega
    rw [List.getElem?_eq_none h1, List.getElem?_eq_none (by rw [hl.length_eq]; exact h1)]

/-- On two names `shuffle` returns them in one of the two orders. -/
theorem shuffle_two (pick : Pick) (a b : String) :
    shuffle pick [a, b] = [a, b] ∨ shuffle pick [a, b] = [b, a] := by
  have h : shuffle pick [a, b] = swapAt [a, b] 1 (pick 1).val := rfl
  rw [h]
  have hlt := (pick 1).isLt
  have h01 : (pick 1).val = 0 ∨ (pick 1).val = 1 := by omega
  rcases h01 with h0 | h1
  · rw [h0]; right; rfl
  · rw [h1]; left; rfl

/-- Neither order of two names passes validation. -/
theorem asignacionValida_two (pick : Pick) (a b : String) :
    asignacionValida [a, b] (shuffle pick [a, b]) = false := by
  rcases shuffle_two pick a b with h | h
  · rw [h]
    simp [asignacionValida, List.range_succ, pasoValido]
  · rw [h]
    by_cases hab : a = b
    · subst hab
      simp [asignacionValida, List.range_succ, pasoValido]
    · have hba : ¬ b = a := fun e => hab e.symm
      have hidx : indexOf [a, b] (some b) = 1 := by
        simp [indexOf, List.indexOf_cons, hab, hba]
      simp [asignacionValida, List.range_succ, pasoValido, hidx, hab, hba]

/-- The cyclic shift of three or more pairwise distinct names passes validation. -/
theorem asignacionValida_rotate (nombres : List String) (hnd : nombres.Nodup)
    (hlen : 3 ≤ nombres.length) : asignacionValida nombres (nombres.rotate 1) = true := by
  have hmod : ∀ i, i < nombres.length →
      (i + 1) % nombres.length = if i + 1 = nombres.length then 0 else i + 1 := by
    intro i hi
    by_cases h : i + 1 = nombres.length
    · rw [if_pos h, h, Nat.mod_self]
    · rw [if_neg h, Nat.mod_eq_of_lt (by omega)]
  have hget : ∀ i, i < nombres.length → ∀ k, k < nombres.length →
      (nombres.rotate 1)[i]? = nombres[k]? → k = if i + 1 = nombres.length then 0 else i + 1 := by
    intro i hi k hk h
    rw [List.getElem?_rotate hi, hmod i hi] at h
    have hb : (if i + 1 = nombres.length then 0 else i + 1) < nombres.length := by
      split <;> omega
    rw [List.getElem?_eq_getElem hb, List.getElem?_eq_getElem hk] at h
    exact ((hnd.getElem_inj_iff).1 (Option.some_injective _ h)).symm
  rw [asignacionValida_iff_posiciones nombres _ hnd]
  constructor
  · intro i hi h
    have := hget i hi i hi h
    split at this <;> omega
  · rintro ⟨i, k, hi, hk, h1, h2⟩
    have e1 := hget i hi k hk h1
    have e2 := hget k hk i hi h2
    split at e1 <;> split at e2 <;> omega

/-- The four ways `agregarParticipante` ends. -/
theorem agregarParticipante_cases (h : Host) (nombreValue pinValue : String) (s : Estado) :
    (h.trim nombreValue = "" ∧
      agregarParticipante h nombreValue pinValue s = ⟨s, some Error.EmptyName⟩) ∨
    (h.trim nombreValue ≠ "" ∧
      (∃ p, p ∈ s.participantes ∧
        h.toLowerCase p.nombre = h.toLowerCase (h.trim nombreValue)) ∧
      agregarParticipante h nombreValue pinValue s = ⟨s, some Error.DuplicateName⟩) ∨
    (h.trim nombreValue ≠ "" ∧
      (¬ ∃ p, p ∈ s.participantes ∧
        h.toLowerCase p.nombre = h.toLowerCase (h.trim nombreValue)) ∧
      pinValue ≠ "" ∧ length16 pinValue ≠ 4 ∧
      agregarParticipante h nombreValue pinValue s = ⟨s, some Error.InvalidPinLength⟩) ∨
    (h.trim nombreValue ≠ "" ∧
      (¬ ∃ p, p ∈ s.participantes ∧
        h.toLowerCase p.nombre = h.toLowerCase (h.trim nombreValue)) ∧
      (pinValue = "" ∨ length16 pinValue = 4) ∧
      agregarParticipante h nombreValue pinValue s =
        ⟨{ s with participantes := s.participantes ++ [⟨h.trim nombreValue, pinValue⟩] },
          none⟩) := by
  unfold agregarParticipante
  simp only
  by_cases h1 : h.trim nombreValue = ""
  · left; exact ⟨h1, by rw [if_pos h1]⟩
  · right
    rw [if_neg h1]
    by_cases h2 : (s.participantes.any fun p =>
        decide (h.toLowerCase p.nombre = h.toLowerCase (h.trim nombreValue))) = true
    · left
      rw [if_pos h2]
      refine ⟨h1, ?_, rfl⟩
      simpa [List.any_eq_true] using h2
    · right
      rw [if_neg h2]
      have h2' : ¬ ∃ p, p ∈ s.participantes ∧
          h.toLowerCase p.nombre = h.toLowerCase (h.trim nombreValue) := by
        simpa [List.any_eq_true] using h2
      by_cases h3 : pinValue ≠ "" ∧ length16 pinValue ≠ 4
      · left; rw [if_pos h3]; exact ⟨h1, h2', h3.1, h3.2, rfl⟩
      · right
        rw [if_neg h3]
        refine ⟨h1, h2', ?_, rfl⟩
        by_cases h4 : pinValue = ""
        · exact Or.inl h4
        · right
          by_contra h5
          exact h3 ⟨h4, h5⟩

theorem eliminarParticipante_participantes_sublist (index : Int) (s : Estado) :
    (eliminarParticipante index s).estado.participantes.Sublist s.participantes := by
  unfold eliminarParticipante
  split
  · exact List.Sublist.refl _
  · exact List.eraseIdx_sublist _ _

theorem realizarSorteo_participantes (rnd : Nat → Pick) (s : Estado) :
    (realizarSorteo rnd s).estado.participantes = s.participantes := by
  unfold realizarSorteo
  split
  · rfl
  · simp only
    split <;> rfl

/-- In every reachable state the names are pairwise different under lower-casing and none is
empty. -/
theorem alcanzable_registro (h : Host) (s : Estado) (hs : Alcanzable h s) :
    s.participantes.Pairwise (fun p q => h.toLowerCase p.nombre ≠ h.toLowerCase q.nombre) ∧
    ∀ p, p ∈ s.participantes → p.nombre ≠ "" := by
  induction hs with
  | inicial => exact ⟨List.Pairwise.nil, by simp [inicial]⟩
  | agregar s nombreValue pinValue _ ih =>
    rcases agregarParticipante_cases h nombreValue pinValue s with
      ⟨_, e⟩ | ⟨_, _, e⟩ | ⟨_, _, _, _, e⟩ | ⟨hne, hnodup, _, e⟩
    · rw [e]; exact ih
    · rw [e]; exact ih
    · rw [e]; exact ih
    · rw [e]
      simp only
      constructor
      · rw [List.pairwise_append]
        refine ⟨ih.1, List.pairwise_singleton _ _, ?_⟩
        intro p hp q hq
        rw [List.mem_singleton] at hq
        subst hq
        exact fun e => hnodup ⟨p, hp, e⟩
      · intro p hp
        rw [List.mem_append, List.mem_singleton] at hp
        rcases hp with hp | hp
        · exact ih.2 p hp
        · subst hp; exact hne
  | eliminar s index _ ih =>
    have hsub := eliminarParticipante_participantes_sublist index s
    exact ⟨ih.1.sublist hsub, fun p hp => ih.2 p (hsub.subset hp)⟩
  | sortear s rnd _ ih =>
    rw [realizarSorteo_participantes]
    exact ih
  | reiniciar s _ _ => exact ⟨List.Pairwise.nil, by simp [reiniciarTodo]⟩

theorem mem_of_mem_prefijo16 {c : Char} :
    ∀ (l : List Char) (n : Nat), c ∈ prefijo16 l n → c ∈ l := by
  intro l
  induction l with
  | nil => intro n h; simp [prefijo16] at h
  | cons a t ih =>
    intro n h
    unfold prefijo16 at h
    split at h
    · rcases List.mem_cons.1 h with h | h
      · exact List.mem_cons.2 (Or.inl h)
      · exact List.mem_cons.2 (Or.inr (ih _ h))
    · simp at h

theorem unidades_of_isDigit {c : Char} (h : c.isDigit = true) : unidades c = 1 := by
  unfold unidades
  have h2 : c.val ≤ 57 := by
    simp only [Char.isDigit, Bool.and_eq_true, decide_eq_true_eq] at h
    exact h.2
  have h3 : c.toNat ≤ 57 := by
    have := UInt32.le_def.1 h2
    simpa [Char.toNat] using this
  rw [if_pos (by omega)]

/-- On a string of digits code units and characters count alike. -/
theorem length16_of_soloDigitos (s : String) (h : soloDigitos s = true) :
    length16 s = s.length := by
  cases s with
  | mk l =>
    simp only [soloDigitos, List.all_eq_true] at h
    simp only [length16, String.length]
    induction l with
    | nil => rfl
    | cons c t ih =>
      rw [List.map_cons, List.sum_cons, List.length_cons,
        unidades_of_isDigit (h c (List.mem_cons_self _ _)),
        ih (fun x hx => h x (List.mem_cons_of_mem _ hx))]
      omega

theorem handlePinInput_soloDigitos (campo : PinInput) (hd : soloDigitos campo.pinValue = true) :
    soloDigitos (handlePinInput campo).1.pinValue = true := by
  unfold handlePinInput
  simp only
  split
  · simp only [soloDigitos, List.all_eq_true] at hd ⊢
    intro c hc
    exact hd c (mem_of_mem_prefijo16 _ _ hc)
  · split
    · split
      · exact hd
      · rename_i hdig
        simp only [Bool.not_eq_true, Bool.not_eq_false] at hdig
        have hdig' : esDigito (ultimo campo.value) = true := by simpa using hdig
        unfold esDigito at hdig'
        split at hdig'
        · rename_i c hc
          simp only [soloDigitos, String.data_append, List.all_append, Bool.and_eq_true]
          refine ⟨hd, ?_⟩
          rw [hc]
          simpa using hdig'
        · exact absurd hdig' (by simp)
    · exact hd

theorem pinTecleado_soloDigitos (valores : List String) :
    soloDigitos (pinTecleado valores) = true := by
  unfold pinTecleado
  have key : ∀ (vs : List String) (campo : PinInput), soloDigitos campo.pinValue = true →
      soloDigitos (vs.foldl (fun campo v => (handlePinInput ⟨v, campo.pinValue⟩).1)
        campo).pinValue = true := by
    intro vs
    induction vs with
    | nil => intro campo hc; exact hc
    | cons v vs ih =>
      intro campo hc
      rw [List.foldl_cons]
      exact ih _ (handlePinInput_soloDigitos ⟨v, campo.pinValue⟩ hc)
  exact key valores ⟨"", ""⟩ rfl

/-- When the loop is left at the ceiling, the candidate on entry and every later candidate
below the ceiling have failed validation. -/
theorem reintentar_ceiling (rnd : Nat → Pick) (nombres : List String) (d : Nat) :
    ∀ (posibles : List String) (intentos : Nat), intentos + (d + 1) = 1000 →
      (reintentar rnd nombres posibles intentos).2 = 1000 →
      asignacionValida nombres posibles = false ∧
      ∀ k, intentos < k → k < 1000 →
        asignacionValida nombres (shuffle (rnd k) nombres) = false := by
  induction d with
  | zero =>
    intro posibles intentos hd h
    by_cases hv : asignacionValida nombres posibles = true
    · rw [reintentar_done rnd nombres posibles intentos (Or.inl hv)] at h
      simp only at h
      omega
    · exact ⟨by simpa using hv, fun k h1 h2 => by omega⟩
  | succ d ih =>
    intro posibles intentos hd h
    by_cases hv : asignacionValida nombres posibles = true
    · rw [reintentar_done rnd nombres posibles intentos (Or.inl hv)] at h
      simp only at h
      omega
    · have hv' : asignacionValida nombres posibles = false := by simpa using hv
      rw [reintentar_retry rnd nombres posibles intentos hv' (by omega)] at h
      obtain ⟨h1, h2⟩ := ih _ _ (by omega) h
      refine ⟨hv', ?_⟩
      intro k hk1 hk2
      by_cases hk : k = intentos + 1
      · subst hk; exact h1
      · exact h2 k (by omega) hk2

/-- With two or more participants `realizarSorteo` fails with `DrawFailed` exactly when the
candidates of the calls of `shuffle` numbered `0` to `999` all fail validation; the candidate
of the call numbered `1000` has no part in it. -/
theorem realizarSorteo_drawFailed_iff (rnd : Nat → Pick) (s : Estado)
    (hlen : 2 ≤ s.participantes.length) :
    (realizarSorteo rnd s).error = some Error.DrawFailed ↔
      ∀ k, k < 1000 →
        asignacionValida (s.participantes.map Participante.nombre)
          (shuffle (rnd k) (s.participantes.map Participante.nombre)) = false := by
  unfold realizarSorteo
  rw [if_neg (by omega)]
  simp only
  constructor
  · intro h
    by_cases hfin : (reintentar rnd (s.participantes.map Participante.nombre)
        (shuffle (rnd 0) (s.participantes.map Participante.nombre)) 0).2 = 1000
    · obtain ⟨h0, hrest⟩ := reintentar_ceiling rnd _ 999 _ 0 (by omega) hfin
      intro k hk
      by_cases hk0 : k = 0
      · subst hk0; exact h0
      · exact hrest k (by omega) hk
    · rw [if_neg hfin] at h
      exact absurd h (by simp)
  · intro h
    rw [if_pos (reintentar_exhaust rnd _ 1000 _ 0 (by omega) (h 0 (by omega))
      (fun k _ hk => h k hk))]

/-- On a registry with pairwise distinct names, none of them `__proto__`: whenever
`realizarSorteo` succeeds the registry has at least 2 participants, `sorteoRealizado` is set
and the stored `asignaciones` is a bijection on the registered names, without fixed point and
without 2-cycle; whenever it does not succeed the globals are left as they were. -/
theorem realizarSorteo_mapping_of_no_proto (rnd : Nat → Pick) (s : Estado)
    (hnd : (s.participantes.map Participante.nombre).Nodup)
    (hproto : "__proto__" ∉ s.participantes.map Participante.nombre) :
    ((realizarSorteo rnd s).error = none →
      2 ≤ s.participantes.length ∧
      (realizarSorteo rnd s).estado.sorteoRealizado = true ∧
      (realizarSorteo rnd s).estado.participantes = s.participantes ∧
      ((realizarSorteo rnd s).estado.asignaciones.map Prod.fst).Perm
        (s.participantes.map Participante.nombre) ∧
      ((realizarSorteo rnd s).estado.asignaciones.map Prod.snd).Perm
        (s.participantes.map Participante.nombre) ∧
      (∀ n, n ∈ s.participantes.map Participante.nombre →
        ∃ m, m ∈ s.participantes.map Participante.nombre ∧
          getProp (realizarSorteo rnd s).estado.asignaciones n = Valor.cadena m) ∧
      (∀ m, m ∈ s.participantes.map Participante.nombre →
        ∃ n, n ∈ s.participantes.map Participante.nombre ∧
          getProp (realizarSorteo rnd s).estado.asignaciones n = Valor.cadena m) ∧
      (∀ n n' m, getProp (realizarSorteo rnd s).estado.asignaciones n = Valor.cadena m →
        getProp (realizarSorteo rnd s).estado.asignaciones n' = Valor.cadena m → n = n') ∧
      (∀ n, getProp (realizarSorteo rnd s).estado.asignaciones n ≠ Valor.cadena n) ∧
      (∀ n m, getProp (realizarSorteo rnd s).estado.asignaciones n = Valor.cadena m →
        getProp (realizarSorteo rnd s).estado.asignaciones m ≠ Valor.cadena n)) ∧
    ((realizarSorteo rnd s).error ≠ none → (realizarSorteo rnd s).estado = s) := by
  refine ⟨?_, realizarSorteo_error rnd s⟩
  intro hok
  obtain ⟨hlen, posibles, hperm, hval, hst⟩ := realizarSorteo_ok rnd s hok
  obtain ⟨h1, h2, h3, h4, h5, h6, h7⟩ := asignar_valid _ posibles hnd hproto hperm hval
  rw [hst]
  refine ⟨hlen, rfl, rfl, ?_, ?_, h3, h4, h5, h6, h7⟩
  · simp only; rw [h1]
  · simp only; rw [h2]; exact hperm

/-- The `forEach` never creates the key `__proto__`. -/
theorem asignar_sin_clave_proto (nombres : List String) :
    ∀ (obj : List (String × String)) (posibles : List String),
      "__proto__" ∉ obj.map Prod.fst →
      "__proto__" ∉ (asignar obj nombres posibles).map Prod.fst := by
  have hown : ∀ (obj : List (String × String)) (k v : String), k ≠ "__proto__" →
      "__proto__" ∉ obj.map Prod.fst → "__proto__" ∉ (setOwn obj k v).map Prod.fst := by
    intro obj k v hk
    induction obj with
    | nil => intro _; simpa [setOwn] using fun e => hk e.symm
    | cons kv rest ih =>
      obtain ⟨k', v'⟩ := kv
      intro h
      simp only [List.map_cons, List.mem_cons, not_or] at h
      unfold setOwn
      split
      · simp only [List.map_cons, List.mem_cons, not_or]
        exact ⟨fun e => hk e.symm, h.2⟩
      · simp only [List.map_cons, List.mem_cons, not_or]
        exact ⟨h.1, ih h.2⟩
  induction nombres with
  | nil => intro obj posibles h; simpa [asignar] using h
  | cons n ns ih =>
    intro obj posibles h
    cases posibles with
    | nil => simpa [asignar] using h
    | cons p ps =>
      have hstep : asignar obj (n :: ns) (p :: ps) = asignar (setProp obj n p) ns ps := rfl
      rw [hstep]
      apply ih
      unfold setProp
      split
      · exact h
      · rename_i hk
        exact hown obj n p hk h

/-! ## The claims -/

/-- C5: on an array of pairwise distinct elements `shuffle` maps the choice sequences
`(j_{n-1}, ..., j_1)`, with `j_i` between `0` and `i`, one-to-one onto the permutations of the
array: every output is a permutation of the input, the output depends on the choices at the
steps `1 ≤ i < n` only, two outcomes with the same output make the same choice at each of these
steps, and every permutation is the output for some choices. -/
theorem shuffle_bijection {α : Type} (arr : List α) (hnd : arr.Nodup) :
    (∀ pick : Pick, (shuffle pick arr).Perm arr) ∧
    (∀ p q : Pick, (∀ i, 1 ≤ i → i < arr.length → p i = q i) →
      shuffle p arr = shuffle q arr) ∧
    (∀ p q : Pick, shuffle p arr = shuffle q arr →
      ∀ i, 1 ≤ i → i < arr.length → p i = q i) ∧
    (∀ l : List α, l.Perm arr → ∃ pick : Pick, shuffle pick arr = l) := by
  refine ⟨fun pick => shuffleLoop_perm pick _ arr, ?_, ?_, ?_⟩
  · intro p q h
    exact shuffleLoop_congr p q _ arr (fun k h1 h2 => h k h1 (by omega))
  · intro p q h i h1 h2
    exact shuffleLoop_injective p q (arr.length - 1) arr hnd (by omega) h i h1 (by omega)
  · intro l hl
    exact shuffle_surjective arr l hl

theorem shuffle_bijection_witness :
    (["Ana", "Beto", "Caro"] : List String).Nodup ∧
    ((∀ pick : Pick, (shuffle pick ["Ana", "Beto", "Caro"]).Perm ["Ana", "Beto", "Caro"]) ∧
    (∀ p q : Pick, (∀ i, 1 ≤ i → i < 3 → p i = q i) →
      shuffle p ["Ana", "Beto", "Caro"] = shuffle q ["Ana", "Beto", "Caro"]) ∧
    (∀ p q : Pick, shuffle p ["Ana", "Beto", "Caro"] = shuffle q ["Ana", "Beto", "Caro"] →
      ∀ i, 1 ≤ i → i < 3 → p i = q i) ∧
    (∀ l : List String, l.Perm ["Ana", "Beto", "Caro"] →
      ∃ pick : Pick, shuffle pick ["Ana", "Beto", "Caro"] = l)) :=
  ⟨by decide, shuffle_bijection ["Ana", "Beto", "Caro"] (by decide)⟩

/-- C4: for pairwise distinct `originales` (and every `asignados`, in particular every
permutation of `originales`), `asignacionValida` returns `true` exactly when no position is a
fixed point and no two positions `i`, `k` form a reciprocal pair `asignados[i] = originales[k]`,
`asignados[k] = originales[i]`. -/
theorem asignacionValida_iff_no_fixed_point_no_two_cycle (originales asignados : List String)
    (hnd : originales.Nodup) :
    asignacionValida originales asignados = true ↔
      (∀ i : Nat, i < originales.length → asignados[i]? ≠ originales[i]?) ∧
      ¬ ∃ i k : Nat, i < originales.length ∧ k < originales.length ∧
          asignados[i]? = originales[k]? ∧ asignados[k]? = originales[i]? :=
  asignacionValida_iff_posiciones originales asignados hnd

theorem asignacionValida_iff_no_fixed_point_no_two_cycle_witness :
    (["Ana", "Beto", "Caro"] : List String).Nodup ∧
    (asignacionValida ["Ana", "Beto", "Caro"] ["Beto", "Caro", "Ana"] = true ↔
      (∀ i : Nat, i < 3 →
        (["Beto", "Caro", "Ana"] : List String)[i]? ≠ (["Ana", "Beto", "Caro"] : List String)[i]?) ∧
      ¬ ∃ i k : Nat, i < 3 ∧ k < 3 ∧
          (["Beto", "Caro", "Ana"] : List String)[i]? = (["Ana", "Beto", "Caro"] : List String)[k]? ∧
          (["Beto", "Caro", "Ana"] : List String)[k]? = (["Ana", "Beto", "Caro"] : List String)[i]?) :=
  ⟨by decide,
    asignacionValida_iff_no_fixed_point_no_two_cycle ["Ana", "Beto", "Caro"]
      ["Beto", "Caro", "Ana"] (by decide)⟩

/-- C1, evaluated where the code departs from it: the registry `__proto__`, Ana, Beto is built
by three calls of `agregarParticipante` and has pairwise distinct names; with the outcome of
the random source whose first candidate is the cyclic shift, `realizarSorteo` succeeds, but
`asignaciones["__proto__"] = "Ana"` stores nothing, so the stored object has the two keys Ana
and Beto only: `__proto__` is no key and reads as the inherited prototype object, and Ana is
nobody's recipient. -/
theorem realizarSorteo_proto_name_not_stored :
    (agregarParticipante hostAscii "Beto" ""
      (agregarParticipante hostAscii "Ana" ""
        (agregarParticipante hostAscii "__proto__" "" inicial).estado).estado).estado
      = conProto ∧
    (conProto.participantes.map Participante.nombre).Nodup ∧
    shuffle (fun _ => 0) ["__proto__", "Ana", "Beto"] = ["Ana", "Beto", "__proto__"] ∧
    asignacionValida ["__proto__", "Ana", "Beto"] ["Ana", "Beto", "__proto__"] = true ∧
    realizarSorteo (fun _ _ => 0) conProto
      = ⟨⟨conProto.participantes, [("Ana", "Beto"), ("Beto", "__proto__")], true⟩, none⟩ ∧
    getProp [("Ana", "Beto"), ("Beto", "__proto__")] "__proto__" = Valor.heredado ∧
    (∀ n, getProp [("Ana", "Beto"), ("Beto", "__proto__")] n ≠ Valor.cadena "Ana") := by
  have hv : asignacionValida ["__proto__", "Ana", "Beto"]
      (shuffle (fun _ => 0) ["__proto__", "Ana", "Beto"]) = true := by decide
  refine ⟨by decide, by decide, by decide, by decide, ?_, by decide, ?_⟩
  · simp only [realizarSorteo, conProto, List.map, List.length]
    rw [reintentar_done _ _ _ _ (Or.inl hv)]
    decide
  · intro n
    rw [getProp_cons, getProp_cons]
    split
    · simp
    · split
      · simp
      · exact getProp_nil_ne_cadena n "Ana"

/-- C3: for every two names `A`, `B` (distinct or not) and every outcome of the random source,
every candidate `shuffle` produces for `[A, B]` is rejected by `asignacionValida`, the loop of
`realizarSorteo` is left with the retry counter at `1000`, and `realizarSorteo` fails with
`DrawFailed`, leaving the participants, `asignaciones` and `sorteoRealizado` unchanged. -/
theorem realizarSorteo_two_participants_fails (rnd : Nat → Pick) (a b : Participante)
    (asignaciones : List (String × String)) (sorteoRealizado : Bool) :
    (∀ pick : Pick, asignacionValida [a.nombre, b.nombre]
      (shuffle pick [a.nombre, b.nombre]) = false) ∧
    (reintentar rnd [a.nombre, b.nombre] (shuffle (rnd 0) [a.nombre, b.nombre]) 0).2 = 1000 ∧
    realizarSorteo rnd ⟨[a, b], asignaciones, sorteoRealizado⟩
      = ⟨⟨[a, b], asignaciones, sorteoRealizado⟩, some Error.DrawFailed⟩ := by
  have hall : ∀ pick : Pick, asignacionValida [a.nombre, b.nombre]
      (shuffle pick [a.nombre, b.nombre]) = false :=
    fun pick => asignacionValida_two pick a.nombre b.nombre
  have hfin : (reintentar rnd [a.nombre, b.nombre]
      (shuffle (rnd 0) [a.nombre, b.nombre]) 0).2 = 1000 :=
    reintentar_exhaust rnd _ 1000 _ 0 (by omega) (hall _) (fun k _ _ => hall _)
  refine ⟨hall, hfin, ?_⟩
  simp only [realizarSorteo, List.map, List.length]
  rw [if_neg (by omega), if_pos hfin]

/-- C2, evaluated where the code departs from it: with three participants, when the candidates
of the calls of `shuffle` numbered `0` to `999` are rejected and the candidate of the call
numbered `1000` is the cyclic shift, the loop is left after 1001 calls of `shuffle` holding a
candidate that passes `asignacionValida`, and `realizarSorteo` fails with `DrawFailed`. -/
theorem realizarSorteo_discards_valid_last_candidate :
    reintentar rndUltimo ["Ana", "Beto", "Caro"]
        (shuffle (rndUltimo 0) ["Ana", "Beto", "Caro"]) 0
      = (["Beto", "Caro", "Ana"], 1000) ∧
    shuffle (rndUltimo 1000) ["Ana", "Beto", "Caro"] = ["Beto", "Caro", "Ana"] ∧
    asignacionValida ["Ana", "Beto", "Caro"] ["Beto", "Caro", "Ana"] = true ∧
    realizarSorteo rndUltimo tresAmigos = ⟨tresAmigos, some Error.DrawFailed⟩ := by
  have hid : ∀ k, k < 1000 →
      asignacionValida ["Ana", "Beto", "Caro"]
        (shuffle (rndUltimo k) ["Ana", "Beto", "Caro"]) = false := by
    intro k hk
    have : rndUltimo k = fun i => Fin.last i := by simp [rndUltimo, hk]
    rw [this]
    decide
  have hlast : shuffle (rndUltimo 1000) ["Ana", "Beto", "Caro"] = ["Beto", "Caro", "Ana"] := by
    decide
  have h2 : (reintentar rndUltimo ["Ana", "Beto", "Caro"]
      (shuffle (rndUltimo 0) ["Ana", "Beto", "Caro"]) 0).2 = 1000 :=
    reintentar_exhaust rndUltimo _ 1000 _ 0 (by omega) (hid 0 (by omega))
      (fun k _ hk => hid k hk)
  have h1 : (reintentar rndUltimo ["Ana", "Beto", "Caro"]
      (shuffle (rndUltimo 0) ["Ana", "Beto", "Caro"]) 0).1 = ["Beto", "Caro", "Ana"] := by
    rcases reintentar_candidate rndUltimo ["Ana", "Beto", "Caro"] 1000
      (shuffle (rndUltimo 0) ["Ana", "Beto", "Caro"]) 0 (by omega) with h | h
    · rw [h] at h2; exact absurd h2 (by decide)
    · rw [h.2.2, h2, hlast]
  refine ⟨Prod.ext h1 h2, hlast, by decide, ?_⟩
  simp only [realizarSorteo, tresAmigos, List.map, List.length]
  rw [if_neg (by omega), if_pos h2]

/-- C10: for every registry of `n ≥ 3` participants with pairwise distinct names there is an
outcome of the random source whose first candidate is the cyclic shift
`candidate[i] = names[(i + 1) mod n]`, which `asignacionValida` accepts, so that
`realizarSorteo` succeeds with it without any retry; and for every registry of fewer than 3
participants `realizarSorteo` fails for every outcome, leaving the globals as they were. -/
theorem realizarSorteo_feasible_from_three (s : Estado) :
    (3 ≤ s.participantes.length → (s.participantes.map Participante.nombre).Nodup →
      ∃ rnd : Nat → Pick,
        (∀ i : Nat, i < s.participantes.length →
          (shuffle (rnd 0) (s.participantes.map Participante.nombre))[i]?
            = (s.participantes.map Participante.nombre)[(i + 1) % s.participantes.length]?) ∧
        asignacionValida (s.participantes.map Participante.nombre)
          (shuffle (rnd 0) (s.participantes.map Participante.nombre)) = true ∧
        reintentar rnd (s.participantes.map Participante.nombre)
          (shuffle (rnd 0) (s.participantes.map Participante.nombre)) 0
          = (shuffle (rnd 0) (s.participantes.map Participante.nombre), 0) ∧
        realizarSorteo rnd s =
          ⟨{ s with
              asignaciones := asignar [] (s.participantes.map Participante.nombre)
                (shuffle (rnd 0) (s.participantes.map Participante.nombre)),
              sorteoRealizado := true }, none⟩) ∧
    (s.participantes.length < 3 →
      ∀ rnd : Nat → Pick,
        (realizarSorteo rnd s).error ≠ none ∧ (realizarSorteo rnd s).estado = s) := by
  constructor
  · intro hlen hnd
    have hlen' : 3 ≤ (s.participantes.map Participante.nombre).length := by simpa using hlen
    obtain ⟨pick, hpick⟩ := shuffle_surjective (s.participantes.map Participante.nombre)
      ((s.participantes.map Participante.nombre).rotate 1) (List.rotate_perm _ _)
    have hval := asignacionValida_rotate _ hnd hlen'
    rw [← hpick] at hval
    have hloop := reintentar_done (fun _ => pick) (s.participantes.map Participante.nombre)
      (shuffle pick (s.participantes.map Participante.nombre)) 0 (Or.inl hval)
    refine ⟨fun _ => pick, ?_, hval, hloop, ?_⟩
    · intro i hi
      simp only
      rw [hpick, List.getElem?_rotate (by simpa using hi), List.length_map]
    · simp only [realizarSorteo]
      rw [if_neg (by omega), hloop, if_neg (by simp)]
  · intro hlen rnd
    have herr : (realizarSorteo rnd s).error ≠ none := by
      by_cases h2 : s.participantes.length < 2
      · simp [realizarSorteo, h2]
      · obtain ⟨ps, asg, flag⟩ := s
        match ps, hlen, h2 with
        | [a, b], _, _ =>
          have hfin : (reintentar rnd [a.nombre, b.nombre]
              (shuffle (rnd 0) [a.nombre, b.nombre]) 0).2 = 1000 :=
            reintentar_exhaust rnd _ 1000 _ 0 (by omega)
              (asignacionValida_two _ a.nombre b.nombre)
              (fun k _ _ => asignacionValida_two _ a.nombre b.nombre)
          simp only [realizarSorteo, List.map, List.length]
          rw [if_neg (by omega), if_pos hfin]
          simp
        | [], _, h2 => simp at h2
        | [_], _, h2 => simp at h2
        | _ :: _ :: _ :: _, hlen, _ => simp at hlen; omega
    exact ⟨herr, realizarSorteo_error rnd s herr⟩

theorem realizarSorteo_feasible_from_three_witness :
    ∃ rnd : Nat → Pick,
      (∀ i : Nat, i < 3 →
        (shuffle (rnd 0) ["Ana", "Beto", "Caro"])[i]?
          = (["Ana", "Beto", "Caro"] : List String)[(i + 1) % 3]?) ∧
      asignacionValida ["Ana", "Beto", "Caro"] (shuffle (rnd 0) ["Ana", "Beto", "Caro"]) = true ∧
      reintentar rnd ["Ana", "Beto", "Caro"] (shuffle (rnd 0) ["Ana", "Beto", "Caro"]) 0
        = (shuffle (rnd 0) ["Ana", "Beto", "Caro"], 0) ∧
      realizarSorteo rnd tresAmigos =
        ⟨{ tresAmigos with
            asignaciones := asignar [] ["Ana", "Beto", "Caro"]
              (shuffle (rnd 0) ["Ana", "Beto", "Caro"]),
            sorteoRealizado := true }, none⟩ :=
  (realizarSorteo_feasible_from_three tresAmigos).1 (by decide) (by decide)

/-- C6: for every state, name and pin, `consultarAsignado` equals the reference with its order
of precedence (`DrawNotYetPerformed`, `NameRequired`, `UnknownParticipant`, `WrongPin`,
`UnexpectedPin`, success with `asignaciones[participante.nombre]`); before a draw it fails with
`DrawNotYetPerformed` whatever the registry and the inputs; and after a draw the lookup of a
registered name succeeds exactly when the supplied pin equals the stored one, returning
`asignaciones[participante.nombre]` then. -/
theorem consultarAsignado_eq_reference (h : Host) (nombreValue pinValue : String)
    (s : Estado) :
    consultarAsignado h nombreValue pinValue s
      = consultarAsignadoRef h nombreValue pinValue s ∧
    (s.sorteoRealizado = false →
      consultarAsignado h nombreValue pinValue s = Except.error Error.DrawNotYetPerformed) ∧
    (∀ p : Participante, s.sorteoRealizado = true → h.trim nombreValue ≠ "" →
      s.participantes.find?
        (fun q => h.toLowerCase q.nombre = h.toLowerCase (h.trim nombreValue)) = some p →
      ((∃ r, consultarAsignado h nombreValue pinValue s = Except.ok r) ↔ pinValue = p.pin) ∧
      (pinValue = p.pin →
        consultarAsignado h nombreValue pinValue s
          = Except.ok (getProp s.asignaciones p.nombre))) := by
  refine ⟨?_, ?_, ?_⟩
  · unfold consultarAsignado consultarAsignadoRef
    cases hflag : s.sorteoRealizado
    · simp
    · by_cases hn : h.trim nombreValue = ""
      · simp [hn]
      · simp only [hn, Bool.not_true, Bool.false_eq_true, if_false, decide_False]
        cases s.participantes.find?
            (fun p => decide (h.toLowerCase p.nombre = h.toLowerCase (h.trim nombreValue))) with
        | none => rfl
        | some p =>
          simp only
          by_cases hp : p.pin = ""
          · simp [hp]
          · by_cases hq : pinValue = p.pin
            · simp [hp, hq]
            · have hq' : ¬ p.pin = pinValue := fun e => hq e.symm
              simp [hp, hq, hq']
  · intro hflag
    simp [consultarAsignado, hflag]
  · intro p hflag hn hfind
    have hval : consultarAsignado h nombreValue pinValue s =
        if p.pin ≠ "" ∧ pinValue ≠ p.pin then Except.error Error.WrongPin
        else if p.pin = "" ∧ pinValue ≠ "" then Except.error Error.UnexpectedPin
        else Except.ok (getProp s.asignaciones p.nombre) := by
      simp only [consultarAsignado, hflag, hn, hfind, Bool.not_true, Bool.false_eq_true,
        if_false]
    rw [hval]
    by_cases hp : p.pin = ""
    · by_cases hq : pinValue = ""
      · simp [hp, hq]
      · simp [hp, hq]
    · by_cases hq : pinValue = p.pin
      · simp [hp, hq]
      · simp [hp, hq]

theorem consultarAsignado_eq_reference_witness :
    consultarAsignado hostAscii " ana " "1234" sorteado = Except.ok (Valor.cadena "Beto") ∧
    ¬ ∃ r, consultarAsignado hostAscii "Ana" "9999" sorteado = Except.ok r := by
  have hfind : ∀ v, hostAscii.toLowerCase (hostAscii.trim v) = "ana" →
      sorteado.participantes.find?
        (fun q => hostAscii.toLowerCase q.nombre = hostAscii.toLowerCase (hostAscii.trim v))
        = some ⟨"Ana", "1234"⟩ := by
    intro v hv
    rw [hv]
    decide
  constructor
  · exact ((consultarAsignado_eq_reference hostAscii " ana " "1234" sorteado).2.2
      ⟨"Ana", "1234"⟩ rfl (by decide) (hfind " ana " (by decide))).2 rfl
  · intro hr
    exact absurd (((consultarAsignado_eq_reference hostAscii "Ana" "9999" sorteado).2.2
      ⟨"Ana", "1234"⟩ rfl (by decide) (hfind "Ana" (by decide))).1.1 hr) (by decide)

/-- C7: in every state reachable from the empty session by calls of `agregarParticipante`,
`eliminarParticipante`, `realizarSorteo` and `reiniciarTodo`, no two participants have names
that are equal after lower-casing; and there, registering a name whose trimmed form equals an
existing participant's name after lower-casing is rejected with `DuplicateName` and leaves the
globals, the registry with its size and order included, as they were. -/
theorem registro_nombres_unicos (h : Host) (s : Estado) (hs : Alcanzable h s) :
    s.participantes.Pairwise
      (fun p q => h.toLowerCase p.nombre ≠ h.toLowerCase q.nombre) ∧
    ∀ nombreValue pinValue : String,
      (∃ p, p ∈ s.participantes ∧
        h.toLowerCase p.nombre = h.toLowerCase (h.trim nombreValue)) →
      agregarParticipante h nombreValue pinValue s = ⟨s, some Error.DuplicateName⟩ := by
  obtain ⟨hpw, hne⟩ := alcanzable_registro h s hs
  refine ⟨hpw, ?_⟩
  intro nombreValue pinValue hdup
  rcases agregarParticipante_cases h nombreValue pinValue s with
    ⟨h0, _⟩ | ⟨_, _, e⟩ | ⟨_, hno, _⟩ | ⟨_, hno, _⟩
  · obtain ⟨p, hp, hpe⟩ := hdup
    rw [h0, h.toLowerCase_empty] at hpe
    exact absurd (h.toLowerCase_nonempty _ hpe) (hne p hp)
  · exact e
  · exact absurd hdup hno
  · exact absurd hdup hno

theorem registro_nombres_unicos_witness :
    Alcanzable hostAscii (agregarParticipante hostAscii "Ana" "" inicial).estado ∧
    agregarParticipante hostAscii " ANA " "1234"
        (agregarParticipante hostAscii "Ana" "" inicial).estado
      = ⟨(agregarParticipante hostAscii "Ana" "" inicial).estado,
          some Error.DuplicateName⟩ :=
  ⟨Alcanzable.agregar inicial "Ana" "" Alcanzable.inicial,
    (registro_nombres_unicos hostAscii (agregarParticipante hostAscii "Ana" "" inicial).estado
      (Alcanzable.agregar inicial "Ana" "" Alcanzable.inicial)).2 " ANA " "1234"
      ⟨⟨"Ana", ""⟩, by decide, by decide⟩⟩

/-- C8, where the code departs from the claim: with an index outside the registry (here `1`
and `-1` on a registry of one participant) `eliminarParticipante` raises no notification; it
is aborted by an uncaught `TypeError`, which is not a recoverable error. -/
theorem eliminarParticipante_index_outside_throws :
    eliminarParticipante 1 ⟨[⟨"Ana", ""⟩], [], false⟩
      = ⟨⟨[⟨"Ana", ""⟩], [], false⟩, some Error.TypeError⟩ ∧
    eliminarParticipante (-1) ⟨[⟨"Ana", ""⟩], [], false⟩
      = ⟨⟨[⟨"Ana", ""⟩], [], false⟩, some Error.TypeError⟩ ∧
    Error.TypeError.recoverable = false := by
  decide

/-- C8, amended: with `0 ≤ index < length` `eliminarParticipante(index)` deletes exactly the
participant at that position, keeping those before and those after in their order, and raises
nothing; with any other index it is aborted by an uncaught `TypeError` and leaves the globals
as they were. -/
theorem eliminarParticipante_deletes_or_throws (index : Int) (s : Estado) :
    (0 ≤ index ∧ index < s.participantes.length →
      eliminarParticipante index s =
        ⟨{ s with
            participantes :=
              s.participantes.take index.toNat ++ s.participantes.drop (index.toNat + 1) },
          none⟩) ∧
    (¬ (0 ≤ index ∧ index < s.participantes.length) →
      eliminarParticipante index s = ⟨s, some Error.TypeError⟩) := by
  constructor
  · rintro ⟨h0, h1⟩
    have hlt : index.toNat < s.participantes.length := by omega
    simp only [eliminarParticipante, participanteEn, if_pos h0,
      List.getElem?_eq_getElem hlt, List.eraseIdx_eq_take_drop_succ]
  · intro hout
    by_cases h0 : 0 ≤ index
    · have hge : s.participantes.length ≤ index.toNat := by omega
      simp only [eliminarParticipante, participanteEn, if_pos h0, List.getElem?_eq_none hge]
    · simp only [eliminarParticipante, participanteEn, if_neg h0]

theorem eliminarParticipante_deletes_or_throws_witness :
    eliminarParticipante 1 tresAmigos
      = ⟨⟨[⟨"Ana", ""⟩, ⟨"Caro", ""⟩], [], false⟩, none⟩ ∧
    eliminarParticipante 3 tresAmigos = ⟨tresAmigos, some Error.TypeError⟩ :=
  ⟨(eliminarParticipante_deletes_or_throws 1 tresAmigos).1 (by decide),
    (eliminarParticipante_deletes_or_throws 3 tresAmigos).2 (by decide)⟩

/-- C9, where the code departs from the claim: the pin `12`, typed into the PIN field, is
non-empty and not 4 characters long, yet with a blank name `agregarParticipante` rejects it
with `EmptyName`, and with a name already registered with `DuplicateName`, not with
`InvalidPinLength`. -/
theorem agregarParticipante_short_pin_other_error :
    pinTecleado ["1", "*2"] = "12" ∧
    length16 "12" ≠ 4 ∧
    agregarParticipante hostAscii "  " (pinTecleado ["1", "*2"]) inicial
      = ⟨inicial, some Error.EmptyName⟩ ∧
    agregarParticipante hostAscii "ana" (pinTecleado ["1", "*2"]) tresAmigos
      = ⟨tresAmigos, some Error.DuplicateName⟩ := by
  decide

/-- C9, amended: for every name string and every pin string passed to `agregarParticipante`
(the pins the page passes are the values `handlePinInput` leaves in the field, `pinTecleado`),
the pin consists of digits only; every participant the call stores has the trimmed name,
non-empty, and that pin, which is empty or exactly 4 characters long with every character a
digit; otherwise the globals are left as they were; and a non-empty pin of any other shape is
rejected with the globals unchanged, with `EmptyName` when the trimmed name is empty, with
`DuplicateName` when it is non-empty and equals a registered name after lower-casing, and with
`InvalidPinLength` when it is non-empty and not yet registered. -/
theorem agregarParticipante_stores_four_digit_pin (h : Host) (nombreValue : String)
    (valores : List String) (s : Estado) :
    soloDigitos (pinTecleado valores) = true ∧
    ((agregarParticipante h nombreValue (pinTecleado valores) s).error = none →
      (agregarParticipante h nombreValue (pinTecleado valores) s).estado
        = { s with
            participantes := s.participantes ++ [⟨h.trim nombreValue, pinTecleado valores⟩] } ∧
      h.trim nombreValue ≠ "" ∧
      (pinTecleado valores = "" ∨
        ((pinTecleado valores).length = 4 ∧ length16 (pinTecleado valores) = 4 ∧
          soloDigitos (pinTecleado valores) = true))) ∧
    ((agregarParticipante h nombreValue (pinTecleado valores) s).error ≠ none →
      (agregarParticipante h nombreValue (pinTecleado valores) s).estado = s) ∧
    (pinTecleado valores ≠ "" →
      ¬ ((pinTecleado valores).length = 4 ∧ soloDigitos (pinTecleado valores) = true) →
      (h.trim nombreValue = "" →
        agregarParticipante h nombreValue (pinTecleado valores) s
          = ⟨s, some Error.EmptyName⟩) ∧
      (h.trim nombreValue ≠ "" →
        (∃ p, p ∈ s.participantes ∧
          h.toLowerCase p.nombre = h.toLowerCase (h.trim nombreValue)) →
        agregarParticipante h nombreValue (pinTecleado valores) s
          = ⟨s, some Error.DuplicateName⟩) ∧
      (h.trim nombreValue ≠ "" →
        (¬ ∃ p, p ∈ s.participantes ∧
          h.toLowerCase p.nombre = h.toLowerCase (h.trim nombreValue)) →
        agregarParticipante h nombreValue (pinTecleado valores) s
          = ⟨s, some Error.InvalidPinLength⟩)) := by
  have hdig := pinTecleado_soloDigitos valores
  have hlen := length16_of_soloDigitos (pinTecleado valores) hdig
  refine ⟨hdig, ?_, ?_, ?_⟩
  · intro hok
    rcases agregarParticipante_cases h nombreValue (pinTecleado valores) s with
      ⟨_, e⟩ | ⟨_, _, e⟩ | ⟨_, _, _, _, e⟩ | ⟨hne, _, hpin, e⟩
    · rw [e] at hok; exact absurd hok (by simp)
    · rw [e] at hok; exact absurd hok (by simp)
    · rw [e] at hok; exact absurd hok (by simp)
    · rw [e]
      refine ⟨rfl, hne, ?_⟩
      rcases hpin with hpin | hpin
      · exact Or.inl hpin
      · exact Or.inr ⟨by omega, hpin, hdig⟩
  · intro herr
    rcases agregarParticipante_cases h nombreValue (pinTecleado valores) s with
      ⟨_, e⟩ | ⟨_, _, e⟩ | ⟨_, _, _, _, e⟩ | ⟨_, _, _, e⟩
    · rw [e]
    · rw [e]
    · rw [e]
    · rw [e] at herr; exact absurd rfl herr
  · intro hp1 hshape
    have hp2 : length16 (pinTecleado valores) ≠ 4 := by
      intro h4
      exact hshape ⟨by omega, hdig⟩
    rcases agregarParticipante_cases h nombreValue (pinTecleado valores) s with
      ⟨h0, e⟩ | ⟨hne, hdup, e⟩ | ⟨hne, hno, _, _, e⟩ | ⟨_, _, hpin, _⟩
    · exact ⟨fun _ => e, fun hne => absurd h0 hne, fun hne => absurd h0 hne⟩
    · exact ⟨fun h0 => absurd h0 hne, fun _ _ => e, fun _ hno => absurd hdup hno⟩
    · exact ⟨fun h0 => absurd h0 hne, fun _ hdup => absurd hdup hno, fun _ _ => e⟩
    · rcases hpin with hpin | hpin
      · exact absurd hpin hp1
      · exact absurd hpin hp2

theorem agregarParticipante_stores_four_digit_pin_witness :
    pinTecleado ["1", "*2", "**x", "**3", "***4"] = "1234" ∧
    (agregarParticipante hostAscii " Ana " (pinTecleado ["1", "*2", "**x", "**3", "***4"])
        inicial).estado
      = ⟨[⟨"Ana", "1234"⟩], [], false⟩ ∧
    agregarParticipante hostAscii "Ana" (pinTecleado ["1", "*2", "**3"]) inicial
      = ⟨inicial, some Error.InvalidPinLength⟩ :=
  ⟨by decide,
    ((agregarParticipante_stores_four_digit_pin hostAscii " Ana "
      ["1", "*2", "**x", "**3", "***4"] inicial).2.1 (by decide)).1,
    ((agregarParticipante_stores_four_digit_pin hostAscii "Ana" ["1", "*2", "**3"]
      inicial).2.2.2 (by decide) (by decide)).2.2 (by decide) (by decide)⟩


end AmigoSecreto
